import Mathlib

/-!
Verification of the hash-omikuji core: the bit-field decoding engine
(`src/rust/src/hash.rs`) and the 1-D visual fingerprint generator
(`src/rust/src/art.rs`), shallowly embedded in Lean 4.

A digest is modelled as a function `Fin 32 → Nat` (the 32 bytes of a
SHA-256 hash); machine-integer casts in the Rust source (`as u8`,
`as u16`, `as u32`, `as i8`, `as i16`) are embedded as explicit
reductions modulo the corresponding power of two.
-/

namespace HashOmikuji

/-- A 256-bit digest: the `bytes: [u8; 32]` field of `HashBits`.
Byte values are arbitrary naturals in the embedding; every theorem below
holds without assuming bytes are below 256, because all bit extraction
reduces each bit modulo 2. -/
abbrev Digest := Fin 32 → Nat

/-- `HashBits::get_bits` from `hash.rs`: for `i` in `0..num_bits`, compute
`bit_index = start_bit + i`, `byte_index = bit_index / 8`,
`bit_offset = 7 - (bit_index % 8)`; if `byte_index < 32` the bit
`(bytes[byte_index] >> bit_offset) & 1` is pushed with
`result = (result << 1) | bit` (on `u64`, hence the reduction modulo
`2 ^ 64`); otherwise the iteration leaves `result` unchanged. -/
def get_bits (d : Digest) (start_bit num_bits : Nat) : Nat :=
  (List.range num_bits).foldl (fun result i =>
    let bit_index := start_bit + i
    if h : bit_index / 8 < 32 then
      (result * 2 + (d ⟨bit_index / 8, h⟩ >>> (7 - bit_index % 8)) % 2) % 2 ^ 64
    else result) 0

/-- The bit of the digest at absolute index `k` (0 = most significant bit
of byte 0), or `0` when `k` is outside the 256-bit digest. -/
def bitAt (d : Digest) (k : Nat) : Nat :=
  if h : k / 8 < 32 then (d ⟨k / 8, h⟩ >>> (7 - k % 8)) % 2 else 0

/-- The spec's `read_bits` contract (§4.2): assemble, most-significant-bit
first, exactly the in-range bit indices among
`start_bit, …, start_bit + num_bits - 1`; bits past the 256-bit boundary
are omitted entirely (they contribute nothing and cause no shift). -/
def read_bits_spec (d : Digest) (start_bit num_bits : Nat) : Nat :=
  ((List.range' start_bit num_bits).filter (fun k => k < 256)).foldl
    (fun acc k => acc * 2 + bitAt d k) 0

/-- Strict assembly of `num_bits` bits from `start_bit`, with no bounds
filtering: meaningful only when the whole range lies inside the digest. -/
def read_bits_strict (d : Digest) (start_bit num_bits : Nat) : Nat :=
  (List.range' start_bit num_bits).foldl (fun acc k => acc * 2 + bitAt d k) 0

/-! ### The field accessors of `HashBits` (`hash.rs`) -/

/-- `lucky_number`: `get_bits(0, 8) as u8`. -/
def lucky_number (d : Digest) : Nat := get_bits d 0 8 % 2 ^ 8

/-- `lucky_hex`: `get_bits(8, 8) as u8`. -/
def lucky_hex (d : Digest) : Nat := get_bits d 8 8 % 2 ^ 8

/-- `lucky_bits`: `get_bits(16, 16) as u16`. -/
def lucky_bits (d : Digest) : Nat := get_bits d 16 16 % 2 ^ 16

/-- `lucky_day`: `let value = get_bits(32, 9) as u16; (value % 365) + 1`. -/
def lucky_day (d : Digest) : Nat := (get_bits d 32 9 % 2 ^ 16) % 365 + 1

/-- `lucky_hour`: `let value = get_bits(41, 5) as u8; value % 24`. -/
def lucky_hour (d : Digest) : Nat := (get_bits d 41 5 % 2 ^ 8) % 24

/-- `lucky_minute`: `let value = get_bits(46, 6) as u8; value % 60`. -/
def lucky_minute (d : Digest) : Nat := (get_bits d 46 6 % 2 ^ 8) % 60

/-- `lucky_power_of_2`: `let n = get_bits(52, 3) as u8; 1 << n` on `u8`. -/
def lucky_power_of_2 (d : Digest) : Nat :=
  (1 <<< (get_bits d 52 3 % 2 ^ 8)) % 2 ^ 8

/-- `lucky_ascii` (as a code point): `let value = get_bits(55, 7) as u8;
32 + (value % 95)`. -/
def lucky_ascii (d : Digest) : Nat := 32 + (get_bits d 55 7 % 2 ^ 8) % 95

/-- The `GATES` table of `lucky_logic_gate`. -/
def GATES : List String :=
  ["AND", "OR", "XOR", "NOT", "NAND", "NOR", "XNOR", "BUFFER"]

/-- `lucky_logic_gate`: `GATES[get_bits(62, 3) as usize % 8]`. -/
def lucky_logic_gate (d : Digest) : String :=
  GATES.getD (get_bits d 62 3 % 8) ""

/-- `luck_scores`: sixteen reads `get_bits(65 + i * 8, 8) as u8`. -/
def luck_scores (d : Digest) : List Nat :=
  (List.range 16).map (fun i => get_bits d (65 + i * 8) 8 % 2 ^ 8)

/-- `entropy_check`: `get_bits(193, 12) as u16`. -/
def entropy_check (d : Digest) : Nat := get_bits d 193 12 % 2 ^ 16

/-- `lucky_emoji` (as a code point): `char::from_u32(0x1F600 +
(get_bits(205, 6) as u32) % 64).unwrap_or('😀')`; the fallback fires
exactly when the computed code point is not a valid `char`. -/
def lucky_emoji (d : Digest) : Nat :=
  let c := 0x1F600 + (get_bits d 205 6 % 2 ^ 32) % 64
  if Nat.isValidChar c then c else 0x1F600

/-- The `DIRS` table of `lucky_direction`. -/
def DIRS : List String := ["↑", "↗", "→", "↘", "↓", "↙", "←", "↖"]

/-- `lucky_direction`: `DIRS[get_bits(211, 3) as usize % 8]`. -/
def lucky_direction (d : Digest) : String :=
  DIRS.getD (get_bits d 211 3 % 8) ""

/-- The `ELEMENTS` table of `lucky_element`. -/
def ELEMENTS : List String :=
  ["H (1)", "He (2)", "C (6)", "N (7)", "O (8)", "Na (11)", "Mg (12)",
   "Al (13)", "Si (14)", "Fe (26)", "Cu (29)", "Ag (47)", "Au (79)",
   "Pt (78)", "Pb (82)", "U (92)"]

/-- `lucky_element`: `ELEMENTS[get_bits(214, 4) as usize % 16]`. -/
def lucky_element (d : Digest) : String :=
  ELEMENTS.getD (get_bits d 214 4 % 16) ""

/-- `lucky_percent`: `let value = get_bits(218, 7) as u8; value % 101`. -/
def lucky_percent (d : Digest) : Nat := (get_bits d 218 7 % 2 ^ 8) % 101

/-- Rust's `as i8` cast applied to a signed value: wrap into `[-128, 127]`. -/
def wrap8 (x : Int) : Int := (x + 128) % 256 - 128

/-- Rust's `as i16` cast applied to an unsigned or signed value: wrap into
`[-32768, 32767]`. -/
def wrap16 (x : Int) : Int := (x + 32768) % 65536 - 32768

/-- `lucky_latitude`: `let value = get_bits(225, 8) as u8;
((value % 181) as i16 - 90) as i8`. -/
def lucky_latitude (d : Digest) : Int :=
  wrap8 ((get_bits d 225 8 % 2 ^ 8 : Int) % 181 - 90)

/-- `lucky_longitude`: `let value = get_bits(233, 9) as u16;
(value % 361) as i16 - 180`. -/
def lucky_longitude (d : Digest) : Int :=
  wrap16 ((get_bits d 233 9 % 2 ^ 16 : Int) % 361) - 180

/-! ### The fingerprint renderer (`art.rs`) -/

/-- The four 2-bit codes of one byte, most-significant pair first:
`(byte >> (6 - shift)) & 0b11` for `shift` in `0, 2, 4, 6`. -/
def byteCodes (b : Nat) : List Nat :=
  [(b >>> 6) % 4, (b >>> 4) % 4, (b >>> 2) % 4, (b >>> 0) % 4]

/-- The 128 sequential 2-bit codes of a digest, bytes in order. -/
def codes (d : Digest) : List Nat := (List.ofFn d).flatMap byteCodes

/-- The `match bits` arm of `generate_omikuji_art`: movement of
0/1/2/3 cells for codes `0b00`/`0b01`/`0b10`/`0b11` (the default arm is
`unreachable!` in the source; codes are always below 4). -/
def movement (bits : Nat) : Int :=
  match bits with
  | 0 => 0
  | 1 => 1
  | 2 => 2
  | 3 => 3
  | _ => 0

/-- The renderer's ephemeral walk state: the signed running position and
the 16-cell visit-count grid. -/
structure WalkState where
  position : Int
  grid : List Nat
  deriving Repr, DecidableEq

/-- `start_pos` in `generate_omikuji_art`. -/
def start_pos : Nat := 0

/-- One loop iteration of `generate_omikuji_art`: `position += movement;
position = position.rem_euclid(16)` (Lean's `Int` `%` is Euclidean);
then `grid[position] = grid[position].saturating_add(1)`. -/
def artStep (s : WalkState) (bits : Nat) : WalkState :=
  let p := (s.position + movement bits) % 16
  { position := p
    grid := s.grid.set p.toNat (Nat.min (s.grid.getD p.toNat 0 + 1) 255) }

/-- The full 128-step walk of `generate_omikuji_art`, starting from
position 0 and the all-zero grid `[0u8; 16]`. -/
def walk (d : Digest) : WalkState :=
  (codes d).foldl artStep ⟨0, List.replicate 16 0⟩

/-- The character emitted for cell `i` of the grid: the `if` chain of
`generate_omikuji_art` (`X` start-and-end, `S` start, `E` end, then
`.`/`+`/`#` by visit count). -/
def renderCell (end_pos i count : Nat) : Char :=
  if i = start_pos ∧ i = end_pos then 'X'
  else if i = start_pos then 'S'
  else if i = end_pos then 'E'
  else if count = 0 then '.'
  else if count = 1 then '+'
  else '#'

/-- `generate_omikuji_art` from `art.rs`: run the walk, then render the
16 grid cells in order. -/
def generate_omikuji_art (d : Digest) : String :=
  let w := walk d
  let end_pos := w.position.toNat
  ⟨(List.range 16).map (fun i => renderCell end_pos i (w.grid.getD i 0))⟩

/-- The all-zero digest: the synthetic test vector of §8. -/
def zeroDigest : Digest := fun _ => 0

/-! ### Hash derivation (`HashBits::from_seed`, `hash.rs`)

The seed-string construction lives in `hash.rs`; the hash itself is the
`sha2` crate, external to this repository.  SHA-256 is therefore modelled
here from the spec ("standard 256-bit cryptographic digest"), following
FIPS 180-4, over `Nat` with explicit reduction modulo `2 ^ 32`. -/

/-- Big-endian byte decomposition: the `n` bytes of `v`, most significant
first. -/
def toBytesBE (n v : Nat) : List Nat :=
  (List.range n).map (fun i => (v >>> (8 * (n - 1 - i))) % 256)

/-- Modelled from the spec: 32-bit right rotation, a SHA-256 primitive of
the external `sha2` crate (FIPS 180-4). -/
def rotr32 (n x : Nat) : Nat := ((x >>> n) ||| (x <<< (32 - n))) % 2 ^ 32

/-- Modelled from the spec: the SHA-256 round constants K (FIPS 180-4),
written in decimal. -/
def shaK : List Nat :=
  [1116352408, 1899447441, 3049323471, 3921009573, 961987163,
   1508970993, 2453635748, 2870763221, 3624381080, 310598401,
   607225278, 1426881987, 1925078388, 2162078206, 2614888103,
   3248222580, 3835390401, 4022224774, 264347078, 604807628,
   770255983, 1249150122, 1555081692, 1996064986, 2554220882,
   2821834349, 2952996808, 3210313671, 3336571891, 3584528711,
   113926993, 338241895, 666307205, 773529912, 1294757372,
   1396182291, 1695183700, 1986661051, 2177026350, 2456956037,
   2730485921, 2820302411, 3259730800, 3345764771, 3516065817,
   3600352804, 4094571909, 275423344, 430227734, 506948616,
   659060556, 883997877, 958139571, 1322822218, 1537002063,
   1747873779, 1955562222, 2024104815, 2227730452, 2361852424,
   2428436474, 2756734187, 3204031479, 3329325298]

/-- Modelled from the spec: the SHA-256 initial hash value H⁽⁰⁾, written
in decimal. -/
def shaH0 : List Nat :=
  [1779033703, 3144134277, 1013904242, 2773480762,
   1359893119, 2600822924, 528734635, 1541459225]

/-- Modelled from the spec: SHA-256 message padding — append `0x80`, then
zero bytes up to 56 mod 64, then the bit length as 8 big-endian bytes. -/
def sha256pad (msg : List Nat) : List Nat :=
  msg ++ [0x80] ++ List.replicate ((119 - msg.length % 64) % 64) 0 ++
    toBytesBE 8 (8 * msg.length)

/-- Big-endian 32-bit words of a byte list. -/
def toWordsBE (bytes : List Nat) : List Nat :=
  (List.range (bytes.length / 4)).map (fun i =>
    bytes.getD (4 * i) 0 * 2 ^ 24 + bytes.getD (4 * i + 1) 0 * 2 ^ 16 +
    bytes.getD (4 * i + 2) 0 * 2 ^ 8 + bytes.getD (4 * i + 3) 0)

/-- Modelled from the spec: the SHA-256 message schedule, extending the
16 words of a block to 64. -/
def shaSchedule (w16 : List Nat) : List Nat :=
  (List.range' 16 48).foldl (fun w t =>
    let s0 := rotr32 7 (w.getD (t - 15) 0) ^^^ rotr32 18 (w.getD (t - 15) 0) ^^^
      (w.getD (t - 15) 0 >>> 3)
    let s1 := rotr32 17 (w.getD (t - 2) 0) ^^^ rotr32 19 (w.getD (t - 2) 0) ^^^
      (w.getD (t - 2) 0 >>> 10)
    w ++ [(w.getD (t - 16) 0 + s0 + w.getD (t - 7) 0 + s1) % 2 ^ 32]) w16

/-- Modelled from the spec: one SHA-256 compression round on the working
variables `[a, b, c, d, e, f, g, h]`. -/
def shaRound (st : List Nat) (k w : Nat) : List Nat :=
  let a := st.getD 0 0
  let b := st.getD 1 0
  let c := st.getD 2 0
  let d := st.getD 3 0
  let e := st.getD 4 0
  let f := st.getD 5 0
  let g := st.getD 6 0
  let h := st.getD 7 0
  let S1 := rotr32 6 e ^^^ rotr32 11 e ^^^ rotr32 25 e
  let ch := (e &&& f) ^^^ ((e ^^^ 0xffffffff) &&& g)
  let temp1 := (h + S1 + ch + k + w) % 2 ^ 32
  let S0 := rotr32 2 a ^^^ rotr32 13 a ^^^ rotr32 22 a
  let maj := (a &&& b) ^^^ (a &&& c) ^^^ (b &&& c)
  let temp2 := (S0 + maj) % 2 ^ 32
  [(temp1 + temp2) % 2 ^ 32, a, b, c, (d + temp1) % 2 ^ 32, e, f, g]

/-- Modelled from the spec: SHA-256 compression of one 16-word block into
the running hash value. -/
def shaCompress (h : List Nat) (block : List Nat) : List Nat :=
  let w := shaSchedule block
  let final := (List.range 64).foldl
    (fun st t => shaRound st (shaK.getD t 0) (w.getD t 0)) h
  List.zipWith (fun x y => (x + y) % 2 ^ 32) h final

/-- Modelled from the spec: the standard SHA-256 digest (as 32 bytes) of a
byte message, per FIPS 180-4; stands in for the external `sha2` crate. -/
def sha256 (msg : List Nat) : List Nat :=
  let padded := sha256pad msg
  let blocks := (List.range (padded.length / 64)).map
    (fun i => toWordsBE ((padded.drop (64 * i)).take 64))
  (blocks.foldl shaCompress shaH0).flatMap (toBytesBE 4)

/-- Modelled from the spec: UTF-8 encoding of one Unicode code point
(RFC 3629); stands in for Rust's `str::as_bytes` view of the seed. -/
def utf8Encode (n : Nat) : List Nat :=
  if n < 0x80 then [n]
  else if n < 0x800 then
    [0xc0 + n / 2 ^ 6, 0x80 + n % 2 ^ 6]
  else if n < 0x10000 then
    [0xe0 + n / 2 ^ 12, 0x80 + n / 2 ^ 6 % 2 ^ 6, 0x80 + n % 2 ^ 6]
  else
    [0xf0 + n / 2 ^ 18, 0x80 + n / 2 ^ 12 % 2 ^ 6, 0x80 + n / 2 ^ 6 % 2 ^ 6,
     0x80 + n % 2 ^ 6]

/-- The UTF-8 bytes of a string. -/
def strBytes (s : String) : List Nat :=
  s.data.flatMap (fun c => utf8Encode c.toNat)

/-- `SALT` from `hash.rs`. -/
def SALT : String := "sha-omikuji-2026"

/-- `HashBits::from_seed`: build `format!("{}-{}-{}", year, user, SALT)`
and hash its UTF-8 bytes with SHA-256. -/
def from_seed (year : Nat) (user : String) : Digest :=
  let seed := toString year ++ "-" ++ user ++ "-" ++ SALT
  fun i => (sha256 (strBytes seed)).getD i 0

/-! ### Spec-side definitions used for refinement statements -/

/-- The walk of §4.3 as the spec words it: the list of positions reached
after each step, starting from position `p` on the circular 16-cell
track; each code adds its own value (0/1/2/3) and the position is
reduced modulo 16 (`Nat.mod`, which is non-negative Euclidean). -/
def spec_positions : List Nat → Nat → List Nat
  | [], _ => []
  | c :: cs, p =>
    let q := (p + c) % 16
    q :: spec_positions cs q

/-- The non-saturating variant of `artStep`, incrementing the visit
counter with plain `+ 1`; used to show saturation is unreachable. -/
def artStepExact (s : WalkState) (bits : Nat) : WalkState :=
  let p := (s.position + movement bits) % 16
  { position := p
    grid := s.grid.set p.toNat (s.grid.getD p.toNat 0 + 1) }

/-- The `(bit_offset, bit_width)` catalog of the 18 fields read by the
`HashBits` accessors, with `luck_scores` contributing its sixteen 8-bit
reads at offsets `65 + 8 * i`. -/
def fieldSpecs : List (Nat × Nat) :=
  [(0, 8), (8, 8), (16, 16), (32, 9), (41, 5), (46, 6), (52, 3), (55, 7),
   (62, 3)] ++
  (List.range 16).map (fun i => (65 + 8 * i, 8)) ++
  [(193, 12), (205, 6), (211, 3), (214, 4), (218, 7), (225, 8), (233, 9)]

/-- The full field decoding of a digest: every accessor of `HashBits`,
bundled (the spec's `FieldMap`). -/
def decode_all (d : Digest) :=
  (lucky_number d, lucky_hex d, lucky_bits d, lucky_day d, lucky_hour d,
   lucky_minute d, lucky_power_of_2 d, lucky_ascii d, lucky_logic_gate d,
   luck_scores d, entropy_check d, lucky_emoji d, lucky_direction d,
   lucky_element d, lucky_percent d, lucky_latitude d, lucky_longitude d)

/-- The spec's seed-string format of §8: `"{year}-{user}-sha-omikuji-2026"`. -/
def spec_seed_string (year : Nat) (user : String) : String :=
  toString year ++ "-" ++ user ++ "-sha-omikuji-2026"

/-! ### Lemmas on the bit reader -/

theorem bitAt_le_one (d : Digest) (k : Nat) : bitAt d k ≤ 1 := by
  unfold bitAt
  split
  · exact Nat.le_of_lt_succ (Nat.mod_lt _ (by omega))
  · exact Nat.zero_le 1

/-- Folding a step function that ignores elements failing `p` is folding
over the filtered list. -/
theorem foldl_ite_eq_foldl_filter {α β : Type} (p : β → Prop)
    [DecidablePred p] (g : α → β → α) :
    ∀ (l : List β) (a : α),
      l.foldl (fun r k => if p k then g r k else r) a =
        (l.filter (fun k => decide (p k))).foldl g a := by
  intro l
  induction l with
  | nil => intro a; rfl
  | cons x xs ih =>
    intro a
    by_cases h : p x
    · simp [List.filter_cons, h, ih]
    · simp [List.filter_cons, h, ih]

/-- `get_bits` over `range' start num`, with the skipped iterations made
explicit. -/
theorem get_bits_eq_foldl_range' (d : Digest) (s n : Nat) :
    get_bits d s n =
      (List.range' s n).foldl
        (fun r k => if k < 256 then (r * 2 + bitAt d k) % 2 ^ 64 else r) 0 := by
  unfold get_bits
  rw [List.range'_eq_map_range, List.foldl_map]
  congr 1
  funext r i
  by_cases h : (s + i) / 8 < 32
  · simp only [dif_pos h, bitAt, if_pos (show s + i < 256 by omega)]
  · simp only [dif_neg h, if_neg (show ¬s + i < 256 by omega)]

/-- With at most `64 - j` iterations left and an accumulator below
`2 ^ j`, the `u64` wrap-around in the bit fold never fires. -/
theorem foldl_bits_drop_mod (d : Digest) :
    ∀ (l : List Nat) (a j : Nat), a < 2 ^ j → l.length + j ≤ 64 →
      l.foldl (fun r k => (r * 2 + bitAt d k) % 2 ^ 64) a =
        l.foldl (fun r k => r * 2 + bitAt d k) a := by
  intro l
  induction l with
  | nil => intro a j _ _; rfl
  | cons x xs ih =>
    intro a j ha hl
    have hb := bitAt_le_one d x
    have hstep : a * 2 + bitAt d x < 2 ^ (j + 1) := by
      have : 2 ^ (j + 1) = 2 ^ j * 2 := by ring
      omega
    have hle : 2 ^ (j + 1) ≤ 2 ^ 64 :=
      Nat.pow_le_pow_right (by omega)
        (by simp only [List.length_cons] at hl; omega)
    have hsmall : a * 2 + bitAt d x < 2 ^ 64 := lt_of_lt_of_le hstep hle
    simp only [List.foldl_cons, Nat.mod_eq_of_lt hsmall]
    exact ih _ (j + 1) hstep (by simp at hl ⊢; omega)

/-- The MSB-first bit fold is bounded by `(a + 1) * 2 ^ length`. -/
theorem foldl_bits_lt (d : Digest) :
    ∀ (l : List Nat) (a : Nat),
      l.foldl (fun r k => r * 2 + bitAt d k) a < (a + 1) * 2 ^ l.length := by
  intro l
  induction l with
  | nil => intro a; simp
  | cons x xs ih =>
    intro a
    have hb := bitAt_le_one d x
    have h1 : (a * 2 + bitAt d x + 1) ≤ (a + 1) * 2 := by omega
    calc (x :: xs).foldl (fun r k => r * 2 + bitAt d k) a
        = xs.foldl (fun r k => r * 2 + bitAt d k) (a * 2 + bitAt d x) := rfl
      _ < (a * 2 + bitAt d x + 1) * 2 ^ xs.length := ih _
      _ ≤ (a + 1) * 2 * 2 ^ xs.length :=
          Nat.mul_le_mul_right _ h1
      _ = (a + 1) * 2 ^ (x :: xs).length := by
          simp [List.length_cons, Nat.pow_succ]; ring

/-- The central bit-reader refinement: for widths up to 64, the Rust
`get_bits` loop computes exactly the spec's in-range-bit assembly. -/
theorem get_bits_eq_read_bits_spec (d : Digest) (s n : Nat) (h64 : n ≤ 64) :
    get_bits d s n = read_bits_spec d s n := by
  rw [get_bits_eq_foldl_range',
    foldl_ite_eq_foldl_filter (fun k => k < 256)
      (fun r k => (r * 2 + bitAt d k) % 2 ^ 64) (List.range' s n) 0]
  unfold read_bits_spec
  have hlen : ((List.range' s n).filter (fun k => k < 256)).length ≤ n := by
    have := List.length_filter_le (fun k => decide (k < 256)) (List.range' s n)
    simpa using this
  exact foldl_bits_drop_mod d _ 0 (64 - n)
    (Nat.pos_pow_of_pos _ (by omega)) (by omega)

/-- `read_bits_spec` produces a value below `2 ^ num_bits`. -/
theorem read_bits_spec_lt (d : Digest) (s n : Nat) :
    read_bits_spec d s n < 2 ^ n := by
  unfold read_bits_spec
  have hlen : ((List.range' s n).filter (fun k => k < 256)).length ≤ n := by
    have := List.length_filter_le (fun k => decide (k < 256)) (List.range' s n)
    simpa using this
  calc ((List.range' s n).filter (fun k => k < 256)).foldl
        (fun acc k => acc * 2 + bitAt d k) 0
      < (0 + 1) * 2 ^ ((List.range' s n).filter (fun k => k < 256)).length :=
        foldl_bits_lt d _ 0
    _ ≤ 2 ^ n := by
        simpa using Nat.pow_le_pow_right (by omega) hlen

/-- `get_bits` produces a value below `2 ^ num_bits` (widths up to 64). -/
theorem get_bits_lt (d : Digest) (s n : Nat) (h64 : n ≤ 64) :
    get_bits d s n < 2 ^ n := by
  rw [get_bits_eq_read_bits_spec d s n h64]
  exact read_bits_spec_lt d s n

/-- Inside the digest, the boundary filter is inert and the spec reader
equals the strict assembly. -/
theorem read_bits_spec_eq_strict (d : Digest) (s n : Nat)
    (h : s + n ≤ 256) :
    read_bits_spec d s n = read_bits_strict d s n := by
  unfold read_bits_spec read_bits_strict
  congr 1
  rw [List.filter_eq_self]
  intro k hk
  have := List.mem_range'_1.mp hk
  simpa using by omega

/-- A machine-integer cast (`as uN`) is inert on `get_bits` whenever the
field width fits the target type. -/
theorem get_bits_mod_eq (d : Digest) (s n m : Nat) (hn : n ≤ 64)
    (hm : 2 ^ n ≤ m) : get_bits d s n % m = read_bits_spec d s n := by
  rw [get_bits_eq_read_bits_spec d s n hn]
  exact Nat.mod_eq_of_lt (lt_of_lt_of_le (read_bits_spec_lt d s n) hm)

theorem wrap8_eq_self (x : Int) (h1 : -128 ≤ x) (h2 : x < 128) :
    wrap8 x = x := by
  unfold wrap8
  rw [Int.emod_eq_of_lt (by omega) (by omega)]
  omega

theorem wrap16_eq_self (x : Int) (h1 : -32768 ≤ x) (h2 : x < 32768) :
    wrap16 x = x := by
  unfold wrap16
  rw [Int.emod_eq_of_lt (by omega) (by omega)]
  omega

/-- C3: for every digest, start bit in `0..256` and width in `1..64`,
`get_bits` assembles the selected bits most-significant-bit first, and
bits past the 256-bit boundary are silently omitted (no contribution, no
shift): the result is exactly the spec's assembly of the in-range bits. -/
theorem get_bits_matches_read_bits_spec (d : Digest) (s n : Nat)
    (hs : s < 256) (h1 : 1 ≤ n) (h64 : n ≤ 64) :
    get_bits d s n = read_bits_spec d s n :=
  get_bits_eq_read_bits_spec d s n h64

/-- Witness for C3 at a boundary-crossing read: start 250, width 10. -/
theorem get_bits_matches_read_bits_spec_witness :
    250 < 256 ∧ 1 ≤ 10 ∧ 10 ≤ 64 ∧
      get_bits zeroDigest 250 10 = read_bits_spec zeroDigest 250 10 :=
  ⟨by decide, by decide, by decide,
    get_bits_matches_read_bits_spec zeroDigest 250 10 (by decide) (by decide)
      (by decide)⟩

theorem lucky_power_of_2_eq (d : Digest) :
    lucky_power_of_2 d = 2 ^ read_bits_spec d 52 3 := by
  unfold lucky_power_of_2
  rw [get_bits_mod_eq d 52 3 _ (by omega) (by norm_num)]
  have h8 : read_bits_spec d 52 3 < 8 := read_bits_spec_lt d 52 3
  rw [Nat.shiftLeft_eq, one_mul]
  exact Nat.mod_eq_of_lt
    (lt_of_lt_of_le (Nat.pow_lt_pow_right (by omega) h8) (by norm_num))

theorem lucky_emoji_eq (d : Digest) :
    lucky_emoji d = 0x1F600 + read_bits_spec d 205 6 % 64 := by
  have hr : get_bits d 205 6 % 2 ^ 32 = read_bits_spec d 205 6 :=
    get_bits_mod_eq d 205 6 _ (by omega) (by norm_num)
  have hm : read_bits_spec d 205 6 % 64 < 64 := Nat.mod_lt _ (by omega)
  have hv : Nat.isValidChar (0x1F600 + read_bits_spec d 205 6 % 64) :=
    Or.inr ⟨by omega, by omega⟩
  simp only [lucky_emoji]
  rw [hr, if_pos hv]

theorem lucky_latitude_eq (d : Digest) :
    lucky_latitude d = (read_bits_spec d 225 8 : Int) % 181 - 90 := by
  have hr : get_bits d 225 8 % 2 ^ 8 = read_bits_spec d 225 8 :=
    get_bits_mod_eq d 225 8 _ (by omega) (le_refl _)
  have hr' : (get_bits d 225 8 : Int) % 2 ^ 8 = (read_bits_spec d 225 8 : Int) := by
    exact_mod_cast hr
  unfold lucky_latitude
  rw [hr']
  have h0 : (0 : Int) ≤ (read_bits_spec d 225 8 : Int) % 181 :=
    Int.emod_nonneg _ (by omega)
  have h1 : (read_bits_spec d 225 8 : Int) % 181 < 181 :=
    Int.emod_lt_of_pos _ (by omega)
  exact wrap8_eq_self _ (by omega) (by omega)

theorem lucky_longitude_eq (d : Digest) :
    lucky_longitude d = (read_bits_spec d 233 9 : Int) % 361 - 180 := by
  have hr : get_bits d 233 9 % 2 ^ 16 = read_bits_spec d 233 9 :=
    get_bits_mod_eq d 233 9 _ (by omega) (by norm_num)
  have hr' : (get_bits d 233 9 : Int) % 2 ^ 16 = (read_bits_spec d 233 9 : Int) := by
    exact_mod_cast hr
  unfold lucky_longitude
  rw [hr']
  have h0 : (0 : Int) ≤ (read_bits_spec d 233 9 : Int) % 361 :=
    Int.emod_nonneg _ (by omega)
  have h1 : (read_bits_spec d 233 9 : Int) % 361 < 361 :=
    Int.emod_lt_of_pos _ (by omega)
  rw [wrap16_eq_self _ (by omega) (by omega)]

theorem getD_mem_of_lt {α : Type} (l : List α) (i : Nat) (dflt : α)
    (h : i < l.length) : l.getD i dflt ∈ l := by
  rw [List.getD_eq_getElem l dflt h]
  exact List.getElem_mem h

theorem luck_scores_getD (d : Digest) (i : Nat) (h : i < 16) :
    (luck_scores d).getD i 0 = get_bits d (65 + i * 8) 8 % 2 ^ 8 := by
  unfold luck_scores
  rw [List.getD_eq_getElem _ 0 (by simpa using h)]
  simp

/-- C1: every catalog field is computed exactly as the FieldSpec table
prescribes, as a formula over the spec's `read_bits` — offsets, widths,
modular range mappings and table lookups all match `hash.rs`. -/
theorem accessors_match_fieldspec (d : Digest) :
    lucky_number d = read_bits_spec d 0 8 ∧
    lucky_hex d = read_bits_spec d 8 8 ∧
    lucky_bits d = read_bits_spec d 16 16 ∧
    lucky_day d = read_bits_spec d 32 9 % 365 + 1 ∧
    lucky_hour d = read_bits_spec d 41 5 % 24 ∧
    lucky_minute d = read_bits_spec d 46 6 % 60 ∧
    lucky_power_of_2 d = 1 <<< read_bits_spec d 52 3 ∧
    lucky_ascii d = 32 + read_bits_spec d 55 7 % 95 ∧
    lucky_logic_gate d = GATES.getD (read_bits_spec d 62 3) "" ∧
    (∀ i : Fin 16,
      (luck_scores d).getD i.val 0 = read_bits_spec d (65 + 8 * i.val) 8) ∧
    entropy_check d = read_bits_spec d 193 12 ∧
    lucky_emoji d = 0x1F600 + read_bits_spec d 205 6 % 64 ∧
    lucky_direction d = DIRS.getD (read_bits_spec d 211 3) "" ∧
    lucky_element d = ELEMENTS.getD (read_bits_spec d 214 4) "" ∧
    lucky_percent d = read_bits_spec d 218 7 % 101 ∧
    lucky_latitude d = (read_bits_spec d 225 8 : Int) % 181 - 90 ∧
    lucky_longitude d = (read_bits_spec d 233 9 : Int) % 361 - 180 := by
  refine ⟨?_, ?_, ?_, ?_, ?_, ?_, ?_, ?_, ?_, ?_, ?_, ?_, ?_, ?_, ?_, ?_, ?_⟩
  · exact get_bits_mod_eq d 0 8 _ (by omega) (le_refl _)
  · exact get_bits_mod_eq d 8 8 _ (by omega) (le_refl _)
  · exact get_bits_mod_eq d 16 16 _ (by omega) (le_refl _)
  · unfold lucky_day
    rw [get_bits_mod_eq d 32 9 _ (by omega) (by norm_num)]
  · unfold lucky_hour
    rw [get_bits_mod_eq d 41 5 _ (by omega) (by norm_num)]
  · unfold lucky_minute
    rw [get_bits_mod_eq d 46 6 _ (by omega) (by norm_num)]
  · rw [lucky_power_of_2_eq, Nat.shiftLeft_eq, one_mul]
  · unfold lucky_ascii
    rw [get_bits_mod_eq d 55 7 _ (by omega) (by norm_num)]
  · unfold lucky_logic_gate
    rw [get_bits_mod_eq d 62 3 _ (by omega) (by norm_num)]
  · intro i
    rw [luck_scores_getD d i.val i.isLt,
      show 65 + i.val * 8 = 65 + 8 * i.val by ring]
    exact get_bits_mod_eq d _ 8 _ (by omega) (le_refl _)
  · exact get_bits_mod_eq d 193 12 _ (by omega) (by norm_num)
  · exact lucky_emoji_eq d
  · unfold lucky_direction
    rw [get_bits_mod_eq d 211 3 _ (by omega) (by norm_num)]
  · unfold lucky_element
    rw [get_bits_mod_eq d 214 4 _ (by omega) (by norm_num)]
  · unfold lucky_percent
    rw [get_bits_mod_eq d 218 7 _ (by omega) (by norm_num)]
  · exact lucky_latitude_eq d
  · exact lucky_longitude_eq d

/-- C6: every decoded field lands in its advertised domain — day in
`[1, 365]`, hour in `[0, 23]`, minute in `[0, 59]`, percent in
`[0, 100]`, latitude in `[-90, 90]`, longitude in `[-180, 180]`, power
of two in `{1, 2, 4, 8, 16, 32, 64, 128}`, ASCII printable, table fields
members of their tables, and the emoji code point in
`U+1F600..U+1F63F`. -/
theorem decoded_fields_in_range (d : Digest) :
    1 ≤ lucky_day d ∧ lucky_day d ≤ 365 ∧
    lucky_hour d ≤ 23 ∧
    lucky_minute d ≤ 59 ∧
    lucky_percent d ≤ 100 ∧
    -90 ≤ lucky_latitude d ∧ lucky_latitude d ≤ 90 ∧
    -180 ≤ lucky_longitude d ∧ lucky_longitude d ≤ 180 ∧
    lucky_power_of_2 d ∈ [1, 2, 4, 8, 16, 32, 64, 128] ∧
    32 ≤ lucky_ascii d ∧ lucky_ascii d ≤ 126 ∧
    lucky_logic_gate d ∈ GATES ∧
    lucky_direction d ∈ DIRS ∧
    lucky_element d ∈ ELEMENTS ∧
    0x1F600 ≤ lucky_emoji d ∧ lucky_emoji d ≤ 0x1F63F := by
  refine ⟨?_, ?_, ?_, ?_, ?_, ?_, ?_, ?_, ?_, ?_, ?_, ?_, ?_, ?_, ?_, ?_, ?_⟩
  · unfold lucky_day; omega
  · unfold lucky_day
    have := Nat.mod_lt (get_bits d 32 9 % 2 ^ 16) (show 0 < 365 by omega)
    omega
  · unfold lucky_hour
    have := Nat.mod_lt (get_bits d 41 5 % 2 ^ 8) (show 0 < 24 by omega)
    omega
  · unfold lucky_minute
    have := Nat.mod_lt (get_bits d 46 6 % 2 ^ 8) (show 0 < 60 by omega)
    omega
  · unfold lucky_percent
    have := Nat.mod_lt (get_bits d 218 7 % 2 ^ 8) (show 0 < 101 by omega)
    omega
  · rw [lucky_latitude_eq]
    have := Int.emod_nonneg (read_bits_spec d 225 8 : Int)
      (show (181 : Int) ≠ 0 by omega)
    omega
  · rw [lucky_latitude_eq]
    have := Int.emod_lt_of_pos (read_bits_spec d 225 8 : Int)
      (show (0 : Int) < 181 by omega)
    omega
  · rw [lucky_longitude_eq]
    have := Int.emod_nonneg (read_bits_spec d 233 9 : Int)
      (show (361 : Int) ≠ 0 by omega)
    omega
  · rw [lucky_longitude_eq]
    have := Int.emod_lt_of_pos (read_bits_spec d 233 9 : Int)
      (show (0 : Int) < 361 by omega)
    omega
  · rw [lucky_power_of_2_eq]
    have h8 : read_bits_spec d 52 3 < 8 := read_bits_spec_lt d 52 3
    interval_cases h : read_bits_spec d 52 3 <;> decide
  · unfold lucky_ascii; omega
  · unfold lucky_ascii
    have := Nat.mod_lt (get_bits d 55 7 % 2 ^ 8) (show 0 < 95 by omega)
    omega
  · unfold lucky_logic_gate
    refine getD_mem_of_lt _ _ _ ?_
    have := Nat.mod_lt (get_bits d 62 3) (show 0 < 8 by omega)
    simpa [GATES] using this
  · unfold lucky_direction
    refine getD_mem_of_lt _ _ _ ?_
    have := Nat.mod_lt (get_bits d 211 3) (show 0 < 8 by omega)
    simpa [DIRS] using this
  · unfold lucky_element
    refine getD_mem_of_lt _ _ _ ?_
    have := Nat.mod_lt (get_bits d 214 4) (show 0 < 16 by omega)
    simpa [ELEMENTS] using this
  · rw [lucky_emoji_eq]; omega
  · rw [lucky_emoji_eq]
    have := Nat.mod_lt (read_bits_spec d 205 6) (show 0 < 64 by omega)
    omega

/-! ### Lemmas on the fingerprint walk -/

theorem getD_set_self {l : List Nat} {k v : Nat} (h : k < l.length) :
    (l.set k v).getD k 0 = v := by
  simp [List.getD_eq_getElem?_getD, List.getElem?_set, h]

theorem getD_set_ne {l : List Nat} {i k v : Nat} (h : k ≠ i) :
    (l.set k v).getD i 0 = l.getD i 0 := by
  simp [List.getD_eq_getElem?_getD, List.getElem?_set, h]

theorem codes_lt (d : Digest) : ∀ c ∈ codes d, c < 4 := by
  intro c hc
  unfold codes at hc
  rcases List.mem_flatMap.mp hc with ⟨b, _, hcb⟩
  have h4 : ∀ x : Nat, x % 4 < 4 := fun x => Nat.mod_lt x (by omega)
  simp only [byteCodes, List.mem_cons, List.mem_singleton] at hcb
  rcases hcb with h | h | h | h | h <;> first
    | (subst h; exact h4 _)
    | exact absurd h (List.not_mem_nil c)

theorem flatMap_byteCodes_length :
    ∀ l : List Nat, (l.flatMap byteCodes).length = 4 * l.length := by
  intro l
  induction l with
  | nil => rfl
  | cons x xs ih =>
    simp only [List.flatMap_cons, List.length_append, ih, byteCodes,
      List.length_cons, List.length_nil]
    omega

theorem codes_length (d : Digest) : (codes d).length = 128 := by
  unfold codes
  rw [flatMap_byteCodes_length, List.length_ofFn]

theorem movement_eq (c : Nat) (h : c < 4) : movement c = (c : Int) := by
  interval_cases c <;> rfl

/-- Positions reached by the spec walk stay on the 16-cell track. -/
theorem spec_positions_getLastD_lt (cs : List Nat) :
    ∀ p : Nat, p < 16 → (spec_positions cs p).getLastD p < 16 := by
  induction cs with
  | nil => intro p hp; exact hp
  | cons c cs ih =>
    intro p _
    rw [spec_positions, List.getLastD_cons]
    exact ih _ (Nat.mod_lt _ (by omega))

/-- The exact (non-saturating) walk, fully characterised: the final
position is the last spec position, the grid keeps length 16, and each
cell's counter grows by the number of steps that ended on it. -/
theorem foldl_artStepExact_spec (cs : List Nat) :
    ∀ (p : Nat) (g : List Nat), (∀ c ∈ cs, c < 4) → g.length = 16 →
      p < 16 →
      (cs.foldl artStepExact ⟨(p : Int), g⟩).position =
        ((spec_positions cs p).getLastD p : Int) ∧
      (cs.foldl artStepExact ⟨(p : Int), g⟩).grid.length = 16 ∧
      ∀ i : Nat, (cs.foldl artStepExact ⟨(p : Int), g⟩).grid.getD i 0 =
        g.getD i 0 + (spec_positions cs p).count i := by
  induction cs with
  | nil =>
    intro p g _ hg _
    refine ⟨rfl, hg, fun i => ?_⟩
    simp [spec_positions]
  | cons c cs ih =>
    intro p g hlt hg hp
    have hc : c < 4 := hlt c (List.mem_cons_self c cs)
    have hq : (p + c) % 16 < 16 := Nat.mod_lt _ (by omega)
    have hstep : artStepExact ⟨(p : Int), g⟩ c =
        ⟨(((p + c) % 16 : Nat) : Int),
          g.set ((p + c) % 16) (g.getD ((p + c) % 16) 0 + 1)⟩ := by
      have hcast : ((p : Int) + (c : Int)) % 16 = (((p + c) % 16 : Nat) : Int) := by
        rw [Int.ofNat_emod]
        push_cast
        rfl
      unfold artStepExact
      rw [movement_eq c hc]
      simp only [hcast, Int.toNat_ofNat]
    rw [List.foldl_cons, hstep]
    have hg' : (g.set ((p + c) % 16) (g.getD ((p + c) % 16) 0 + 1)).length = 16 := by
      rw [List.length_set]; exact hg
    obtain ⟨hpos, hlen, hcount⟩ :=
      ih ((p + c) % 16) _ (fun x hx => hlt x (List.mem_cons_of_mem c hx)) hg' hq
    refine ⟨?_, hlen, ?_⟩
    · rw [hpos, spec_positions, List.getLastD_cons]
    · intro i
      rw [hcount i, spec_positions, List.count_cons]
      by_cases hi : (p + c) % 16 = i
      · subst hi
        rw [getD_set_self (by rw [hg]; exact hq)]
        simp
        omega
      · rw [getD_set_ne hi]
        simp [hi]

/-- Under enough headroom, the saturating step chain coincides with the
exact one. -/
theorem foldl_artStep_eq_exact (cs : List Nat) :
    ∀ s : WalkState, s.grid.length = 16 →
      (∀ j : Nat, s.grid.getD j 0 + cs.length ≤ 255) →
      cs.foldl artStep s = cs.foldl artStepExact s := by
  induction cs with
  | nil => intro s _ _; rfl
  | cons c cs ih =>
    intro s hlen hcap
    have hpos : ((s.position + movement c) % 16).toNat < 16 := by
      have h0 : (0 : Int) ≤ (s.position + movement c) % 16 :=
        Int.emod_nonneg _ (by omega)
      have h1 : (s.position + movement c) % 16 < 16 :=
        Int.emod_lt_of_pos _ (by omega)
      omega
    have hcell := hcap ((s.position + movement c) % 16).toNat
    have hmin : Nat.min
        (s.grid.getD ((s.position + movement c) % 16).toNat 0 + 1) 255 =
        s.grid.getD ((s.position + movement c) % 16).toNat 0 + 1 :=
      Nat.min_eq_left (by simp only [List.length_cons] at hcell; omega)
    have hstep : artStep s c = artStepExact s c := by
      simp only [artStep, artStepExact, hmin]
    rw [List.foldl_cons, List.foldl_cons, hstep]
    refine ih (artStepExact s c) ?_ ?_
    · unfold artStepExact
      simpa using hlen
    · intro j
      have hj := hcap j
      simp only [List.length_cons] at hj hcap
      unfold artStepExact
      by_cases hij : ((s.position + movement c) % 16).toNat = j
      · subst hij
        rw [getD_set_self (by rw [hlen]; exact hpos)]
        omega
      · rw [getD_set_ne hij]
        omega

/-- The full walk of `generate_omikuji_art`, related to the spec walk:
no saturation, final position is the last spec position, and each cell
counts exactly the steps that ended there. -/
theorem walk_spec (d : Digest) :
    walk d = (codes d).foldl artStepExact ⟨0, List.replicate 16 0⟩ ∧
    (walk d).position = ((spec_positions (codes d) 0).getLastD 0 : Int) ∧
    (walk d).grid.length = 16 ∧
    ∀ i : Nat, (walk d).grid.getD i 0 = (spec_positions (codes d) 0).count i := by
  have hz : ∀ j : Nat, (List.replicate 16 (0 : Nat)).getD j 0 = 0 := by
    intro j
    rw [List.getD_eq_getElem?_getD, List.getElem?_replicate]
    split <;> rfl
  have heq : walk d = (codes d).foldl artStepExact ⟨0, List.replicate 16 0⟩ := by
    unfold walk
    refine foldl_artStep_eq_exact (codes d) _ (by simp) ?_
    intro j
    rw [hz j, codes_length]
    omega
  have hmain := foldl_artStepExact_spec (codes d) 0 (List.replicate 16 0)
    (codes_lt d) (by simp) (by omega)
  simp only [Nat.cast_zero] at hmain
  obtain ⟨hpos, hlen, hcount⟩ := hmain
  refine ⟨heq, ?_, ?_, ?_⟩
  · rw [heq]; exact hpos
  · rw [heq]; exact hlen
  · intro i
    rw [heq, hcount i, hz i]
    omega

theorem spec_positions_length :
    ∀ (cs : List Nat) (p : Nat), (spec_positions cs p).length = cs.length := by
  intro cs
  induction cs with
  | nil => intro p; rfl
  | cons c cs ih =>
    intro p
    rw [spec_positions, List.length_cons, List.length_cons, ih]

set_option maxRecDepth 4000 in
/-- C2: the all-zero digest renders as one `X` followed by fifteen
dots. -/
theorem art_zero_digest :
    generate_omikuji_art zeroDigest = "X..............." := by decide

/-- C4: the renderer's walk is exactly the spec's — the digest yields 128
two-bit codes (most-significant pair of each byte first), the position
starts at 0, each code moves 0–3 cells with Euclidean reduction modulo
16, every step increments the visit counter of the cell it reaches
(saturating at 255), and the end position is the position after the last
step while the start position is the constant 0. -/
theorem art_walk_matches_spec (d : Digest) :
    (codes d).length = 128 ∧
    (∀ i : Fin 128, (codes d).getD i.val 0 < 4) ∧
    (walk d).position = ((spec_positions (codes d) 0).getLastD 0 : Int) ∧
    (∀ i : Fin 16,
      (walk d).grid.getD i.val 0 =
        Nat.min ((spec_positions (codes d) 0).count i.val) 255) ∧
    start_pos = 0 := by
  obtain ⟨heq, hpos, hlen, hcount⟩ := walk_spec d
  refine ⟨codes_length d, ?_, hpos, ?_, rfl⟩
  · intro i
    have hilt : i.val < (codes d).length := by
      rw [codes_length]; exact i.isLt
    rw [List.getD_eq_getElem _ _ hilt]
    exact codes_lt d _ (List.getElem_mem hilt)
  · intro i
    have h1 := List.count_le_length i.val (spec_positions (codes d) 0)
    rw [spec_positions_length, codes_length] at h1
    have hmin : Nat.min ((spec_positions (codes d) 0).count i.val) 255 =
        (spec_positions (codes d) 0).count i.val :=
      Nat.min_eq_left (by omega)
    rw [hcount i.val, hmin]

/-- C10: visit counters never exceed the number of steps processed (so
never exceed 128 at the end), the 255 saturation is unreachable — the
saturating walk coincides with the exact one — and every final counter is
exactly the number of steps that ended on that cell. -/
theorem visit_counts_exact (d : Digest) :
    walk d = (codes d).foldl artStepExact ⟨0, List.replicate 16 0⟩ ∧
    (∀ n : Nat, ∀ i : Fin 16,
      (((codes d).take n).foldl artStep
        ⟨0, List.replicate 16 0⟩).grid.getD i.val 0 ≤ n) ∧
    ∀ i : Fin 16,
      (walk d).grid.getD i.val 0 = (spec_positions (codes d) 0).count i.val ∧
      (walk d).grid.getD i.val 0 ≤ 128 := by
  obtain ⟨heq, hpos, hlen, hcount⟩ := walk_spec d
  have hz : ∀ j : Nat, (List.replicate 16 (0 : Nat)).getD j 0 = 0 := by
    intro j
    rw [List.getD_eq_getElem?_getD, List.getElem?_replicate]
    split <;> rfl
  refine ⟨heq, ?_, ?_⟩
  · intro n i
    have htlt : ∀ c ∈ (codes d).take n, c < 4 :=
      fun c hc => codes_lt d c (List.take_subset n (codes d) hc)
    have htlen : ((codes d).take n).length ≤ 128 := by
      rw [List.length_take, codes_length]
      omega
    have hexact := foldl_artStep_eq_exact ((codes d).take n)
      ⟨0, List.replicate 16 0⟩ (by simp)
      (fun j => by simp only; rw [hz j]; omega)
    rw [hexact]
    have hmain := foldl_artStepExact_spec ((codes d).take n) 0
      (List.replicate 16 0) htlt (by simp) (by omega)
    simp only [Nat.cast_zero] at hmain
    rw [hmain.2.2 i.val, hz i.val]
    have h1 := List.count_le_length i.val
      (spec_positions ((codes d).take n) 0)
    rw [spec_positions_length, List.length_take] at h1
    omega
  · intro i
    refine ⟨hcount i.val, ?_⟩
    rw [hcount i.val]
    have h1 := List.count_le_length i.val (spec_positions (codes d) 0)
    rw [spec_positions_length, codes_length] at h1
    exact h1

/-! ### The fingerprint's shape (C5) -/

theorem renderCell_mem (e i c : Nat) :
    renderCell e i c ∈ ['S', 'E', 'X', '.', '+', '#'] := by
  unfold renderCell
  split_ifs <;> simp

theorem renderCell_eq_X_iff (e i c : Nat) :
    renderCell e i c = 'X' ↔ i = 0 ∧ i = e := by
  unfold renderCell start_pos
  split_ifs with h1 h2 h3 h4 h5
  · exact iff_of_true rfl h1
  · exact iff_of_false (by decide) h1
  · exact iff_of_false (by decide) h1
  · exact iff_of_false (by decide) h1
  · exact iff_of_false (by decide) h1
  · exact iff_of_false (by decide) h1

theorem renderCell_eq_S_iff (e i c : Nat) :
    renderCell e i c = 'S' ↔ i = 0 ∧ ¬i = e := by
  unfold renderCell start_pos
  split_ifs with h1 h2 h3 h4 h5
  · exact iff_of_false (by decide) (fun h => h.2 h1.2)
  · exact iff_of_true rfl ⟨h2, fun he => h1 ⟨h2, he⟩⟩
  · exact iff_of_false (by decide) (fun h => h2 h.1)
  · exact iff_of_false (by decide) (fun h => h2 h.1)
  · exact iff_of_false (by decide) (fun h => h2 h.1)
  · exact iff_of_false (by decide) (fun h => h2 h.1)

theorem renderCell_eq_E_iff (e i c : Nat) :
    renderCell e i c = 'E' ↔ ¬i = 0 ∧ i = e := by
  unfold renderCell start_pos
  split_ifs with h1 h2 h3 h4 h5
  · exact iff_of_false (by decide) (fun h => h.1 h1.1)
  · exact iff_of_false (by decide) (fun h => h.1 h2)
  · exact iff_of_true rfl ⟨h2, h3⟩
  · exact iff_of_false (by decide) (fun h => h3 h.2)
  · exact iff_of_false (by decide) (fun h => h3 h.2)
  · exact iff_of_false (by decide) (fun h => h3 h.2)

/-- The end position of the walk lies on the track. -/
theorem walk_end_lt (d : Digest) : (walk d).position.toNat < 16 := by
  obtain ⟨_, hpos, _, _⟩ := walk_spec d
  rw [hpos, Int.toNat_ofNat]
  exact spec_positions_getLastD_lt (codes d) 0 (by omega)

/-- C5: the fingerprint has exactly 16 characters over
`{S, E, X, ., +, #}`, its first character is `S` or `X`, and it carries
either exactly one `X` (no `S`, no `E`) or exactly one `S` and exactly
one `E` (no `X`). -/
theorem fingerprint_shape (d : Digest) :
    (generate_omikuji_art d).length = 16 ∧
    (∀ i : Fin 16,
      (generate_omikuji_art d).data.getD i.val '.' ∈
        ['S', 'E', 'X', '.', '+', '#']) ∧
    ((generate_omikuji_art d).data.getD 0 '.' = 'S' ∨
      (generate_omikuji_art d).data.getD 0 '.' = 'X') ∧
    (((generate_omikuji_art d).data.count 'X' = 1 ∧
      (generate_omikuji_art d).data.count 'S' = 0 ∧
      (generate_omikuji_art d).data.count 'E' = 0) ∨
     ((generate_omikuji_art d).data.count 'X' = 0 ∧
      (generate_omikuji_art d).data.count 'S' = 1 ∧
      (generate_omikuji_art d).data.count 'E' = 1)) := by
  have he : (walk d).position.toNat < 16 := walk_end_lt d
  have hdata : (generate_omikuji_art d).data =
      (List.range 16).map (fun i =>
        renderCell (walk d).position.toNat i ((walk d).grid.getD i 0)) := rfl
  have hcount : ∀ ch : Char, (generate_omikuji_art d).data.count ch =
      List.countP (fun i =>
        renderCell (walk d).position.toNat i ((walk d).grid.getD i 0) == ch)
        (List.range 16) := by
    intro ch
    rw [hdata, List.count_eq_countP, List.countP_map]
    rfl
  refine ⟨?_, ?_, ?_, ?_⟩
  · rw [show (generate_omikuji_art d).length =
      (generate_omikuji_art d).data.length from rfl, hdata]
    simp
  · intro i
    rw [hdata, List.getD_eq_getElem _ _ (by simp)]
    simp only [List.getElem_map, List.getElem_range]
    exact renderCell_mem _ _ _
  · rw [hdata, List.getD_eq_getElem _ _ (by simp)]
    simp only [List.getElem_map, List.getElem_range]
    by_cases he0 : (walk d).position.toNat = 0
    · right
      rw [renderCell_eq_X_iff]
      exact ⟨rfl, he0.symm⟩
    · left
      rw [renderCell_eq_S_iff]
      exact ⟨rfl, fun h => he0 h.symm⟩
  · by_cases he0 : (walk d).position.toNat = 0
    · left
      refine ⟨?_, ?_, ?_⟩
      · rw [hcount 'X',
          List.countP_congr (q := fun i => i == 0) (fun x _ => by
            simp [renderCell_eq_X_iff, he0])]
        decide
      · rw [hcount 'S']
        rw [List.countP_eq_zero]
        intro x _
        simp [renderCell_eq_S_iff, he0]
      · rw [hcount 'E']
        rw [List.countP_eq_zero]
        intro x _
        simp [renderCell_eq_E_iff, he0]
    · right
      refine ⟨?_, ?_, ?_⟩
      · rw [hcount 'X']
        rw [List.countP_eq_zero]
        intro x _
        simp only [beq_iff_eq, renderCell_eq_X_iff]
        intro h
        exact he0 (h.1 ▸ h.2.symm)
      · rw [hcount 'S',
          List.countP_congr (q := fun i => i == 0) (fun x _ => by
            simp only [beq_iff_eq, renderCell_eq_S_iff]
            constructor
            · exact fun h => h.1
            · exact fun h => ⟨h, fun hxe => he0 (h ▸ hxe.symm)⟩)]
        decide
      · rw [hcount 'E',
          List.countP_congr (q := fun i => i == (walk d).position.toNat)
            (fun x _ => by
              simp only [beq_iff_eq, renderCell_eq_E_iff]
              constructor
              · exact fun h => h.2
              · exact fun h => ⟨fun hx0 => he0 (hx0 ▸ h).symm, h⟩)]
        rw [← List.count_eq_countP]
        exact List.count_eq_one_of_mem (List.nodup_range 16)
          (List.mem_range.mpr he)

/-! ### Hash derivation, catalog bounds and determinism (C7, C8, C9) -/

theorem sha256_getD_lt (msg : List Nat) (i : Nat) :
    (sha256 msg).getD i 0 < 256 := by
  have hmem : ∀ x ∈ sha256 msg, x < 256 := by
    intro x hx
    unfold sha256 at hx
    rcases List.mem_flatMap.mp hx with ⟨w, _, hxw⟩
    unfold toBytesBE at hxw
    rcases List.mem_map.mp hxw with ⟨j, _, hj⟩
    rw [← hj]
    exact Nat.mod_lt _ (by omega)
  rw [List.getD_eq_getElem?_getD]
  rcases h : (sha256 msg)[i]? with _ | x
  · exact (by omega : (0 : Nat) < 256)
  · exact hmem x (List.getElem?_mem h)

/-- C7: for every year and every user string, `from_seed` hashes the
UTF-8 bytes of the seed string `"{year}-{user}-sha-omikuji-2026"` with
the (spec-modelled) standard SHA-256, producing a 32-byte digest; the
function is total — any year and any user string, including the empty
one, are valid. -/
theorem from_seed_spec (year : Nat) (user : String) :
    from_seed year user =
      (fun i => (sha256 (strBytes (spec_seed_string year user))).getD i.val 0) ∧
    ∀ i : Fin 32, from_seed year user i < 256 := by
  have hseed : toString year ++ "-" ++ user ++ "-" ++ SALT =
      spec_seed_string year user := by
    unfold spec_seed_string SALT
    rw [String.append_assoc]
    congr 1
  constructor
  · funext i
    unfold from_seed
    rw [hseed]
  · intro i
    unfold from_seed
    exact sha256_getD_lt _ _

/-- C8: the 18 catalog fields (the sixteen `luck_scores` reads counted
individually) occupy pairwise disjoint bit ranges, all inside the
256-bit digest, so `get_bits` on every catalog field coincides with the
strict, truncation-free bit assembly. -/
theorem fieldspecs_disjoint_in_bounds :
    (∀ p ∈ fieldSpecs, p.1 + p.2 ≤ 256) ∧
    List.Pairwise (fun p q => p.1 + p.2 ≤ q.1 ∨ q.1 + q.2 ≤ p.1) fieldSpecs ∧
    ∀ (d : Digest) (p : Nat × Nat), p ∈ fieldSpecs →
      get_bits d p.1 p.2 = read_bits_strict d p.1 p.2 := by
  have hall : ∀ q ∈ fieldSpecs, q.2 ≤ 64 ∧ q.1 + q.2 ≤ 256 := by decide
  refine ⟨by decide, by decide, ?_⟩
  intro d p hp
  obtain ⟨h64, h256⟩ := hall p hp
  rw [get_bits_eq_read_bits_spec d p.1 p.2 h64,
    read_bits_spec_eq_strict d p.1 p.2 h256]

/-- Witness for C8 at the field closest to the boundary
(`lucky_longitude`, bits 233–241). -/
theorem fieldspecs_disjoint_in_bounds_witness :
    (233, 9) ∈ fieldSpecs ∧
      get_bits zeroDigest 233 9 = read_bits_strict zeroDigest 233 9 :=
  ⟨by decide,
    fieldspecs_disjoint_in_bounds.2.2 zeroDigest (233, 9) (by decide)⟩

/-- C9: determinism as a two-run property — equal inputs give
bit-identical digests, identical decoded field maps and identical
fingerprints; no hidden state influences any result (all three
functions are pure Lean functions of their arguments). -/
theorem determinism_two_runs (y1 y2 : Nat) (u1 u2 : String)
    (d1 d2 : Digest) (hy : y1 = y2) (hu : u1 = u2) (hd : d1 = d2) :
    from_seed y1 u1 = from_seed y2 u2 ∧
    decode_all d1 = decode_all d2 ∧
    generate_omikuji_art d1 = generate_omikuji_art d2 := by
  subst hy; subst hu; subst hd
  exact ⟨rfl, rfl, rfl⟩

/-- Witness for C9 on concrete inputs. -/
theorem determinism_two_runs_witness :
    from_seed 2026 "alice" = from_seed 2026 "alice" ∧
    decode_all zeroDigest = decode_all zeroDigest ∧
    generate_omikuji_art zeroDigest = generate_omikuji_art zeroDigest :=
  determinism_two_runs 2026 2026 "alice" "alice" zeroDigest zeroDigest
    rfl rfl rfl

end HashOmikuji
